import Mathlib

/-!
Verification of the socialweb support-launcher pipeline
(`extract_url.py` and `create_html.py`).

Strings are modelled as lists of characters (`Str`).  Python whitespace
stripping is modelled with `Char.isWhitespace` (space, tab, CR, LF).
Python's `str.upper()` on one character is modelled by `pyUpper`, which
covers ASCII and the two one-to-one non-ASCII-to-ASCII uppercase
mappings of the Unicode character database (U+0131 → I, U+017F → S);
one-to-many expansions (e.g. U+00DF → SS and the ligatures) do not fit a
single-character image and are outside the model, as is the Unicode case
folding of `str.lower()` beyond ASCII (used only for sort order).
-/

abbrev Str := List Char

/-- Python `str.strip()`: remove leading and trailing whitespace. -/
def strip (s : Str) : Str :=
  ((s.dropWhile Char.isWhitespace).reverse.dropWhile Char.isWhitespace).reverse

/-- The `startswith`-guarded prefix removal used in `URLProcessor.clean_url`
    (and `str.removeprefix` on the netloc): drop `p` from the front of `s`
    when present, otherwise leave `s` unchanged. -/
def dropPre (p s : Str) : Str := if p <+: s then s.drop p.length else s

def httpsL : Str := "https://".toList
def httpL : Str := "http://".toList
def wwwL : Str := "www.".toList

/-- `URLProcessor.clean_url`: strip whitespace, then remove the prefixes
    `https://`, `http://`, `www.` in that order (each at most once, each
    tested against the string produced by the previous removal). -/
def clean_url (url : Str) : Str :=
  dropPre wwwL (dropPre httpL (dropPre httpsL (strip url)))

/-- Split at the first occurrence of `c`: the part before it and the part
    after it (the second component is empty when `c` is absent; the source
    only ever tests the resulting query/fragment for emptiness, so absent
    and empty components need not be distinguished). -/
def splitAtFirst (c : Char) (s : Str) : Str × Str :=
  (s.takeWhile (fun x => !(x == c)), (s.dropWhile (fun x => !(x == c))).drop 1)

/-- The segment of `p` after its last `'/'` (all of `p` when it has none). -/
def lastSeg (p : Str) : Str := (p.reverse.takeWhile (fun x => !(x == '/'))).reverse

/-- CPython `urllib.parse._splitparams` as it acts on `parsed.path`:
    when the last path segment contains `';'`, the segment is cut at its
    first `';'` (the params are dropped, because `URLProcessor` reads only
    `parsed.path`). -/
def dropParams (p : Str) : Str :=
  if ';' ∈ p then
    if '/' ∈ p then
      if ';' ∈ lastSeg p then
        p.take (p.length - (lastSeg p).length) ++ (lastSeg p).takeWhile (fun x => !(x == ';'))
      else p
    else p.takeWhile (fun x => !(x == ';'))
  else p

structure ParsedURL where
  netloc : Str
  path : Str
  query : Str
  fragment : Str
deriving DecidableEq

/-- CPython `urllib.parse.urlparse` applied to `"https://" ++ rest`,
    restricted to the four fields the source reads: the fragment is the
    part after the first `'#'`, the query the part after the first `'?'`
    before the fragment, the netloc runs up to the first `'/'`, `'?'` or
    `'#'`, and the path is the remainder with any `;params` of its last
    segment removed.  CPython raises `ValueError` (since Python 3.2) when
    the netloc contains unbalanced square brackets, and newer versions
    also validate bracketed hosts and remove tab/CR/LF; this total model
    has no error path, so every theorem that runs it under a universal
    quantifier carries hypotheses excluding whitespace and square
    brackets from the parsed string. -/
def parseHttps (rest : Str) : ParsedURL :=
  let hsplit := splitAtFirst '#' rest
  let qsplit := splitAtFirst '?' hsplit.1
  let netloc := qsplit.1.takeWhile (fun x => !(x == '/'))
  let rawPath := qsplit.1.drop netloc.length
  { netloc := netloc, path := dropParams rawPath,
    query := qsplit.2, fragment := hsplit.2 }

/-- Python `str.rstrip('/')`. -/
def rstripSlash (s : Str) : Str := (s.reverse.dropWhile (fun x => x == '/')).reverse

/-- Python `str.strip('/')`. -/
def stripSlash (s : Str) : Str := rstripSlash (s.dropWhile (fun x => x == '/'))

def SUPPORT_PATH : Str := "/login/support/".toList
def loginSupport : Str := "login/support".toList
def slashLoginSupport : Str := "/login/support".toList

/-- The lower half of `URLProcessor.add_support_path` (lines 57-82 of
    `extract_url.py`): parse `'https://' + clean_url`, rebuild the address
    with the support path inserted, preserving query and fragment and
    stripping a `www.` prefix from the netloc. -/
def buildResult (cu : Str) : Str :=
  let pr := parseHttps cu
  if pr.netloc = [] then rstripSlash cu ++ SUPPORT_PATH
  else
    let cp := stripSlash pr.path
    let newPath :=
      if loginSupport <:+: cp then (if cp = [] then [] else '/' :: cp)
      else (if cp = [] then SUPPORT_PATH else '/' :: cp ++ SUPPORT_PATH)
    let r1 := dropPre wwwL pr.netloc ++ newPath
    let r2 := if pr.query = [] then r1 else r1 ++ '?' :: pr.query
    if pr.fragment = [] then r2 else r2 ++ '#' :: pr.fragment

/-- `URLProcessor.add_support_path`.  `pd.isna` is `False` on every string,
    so the guard `not url or pd.isna(url)` together with the post-strip
    emptiness test collapses to `strip url = []`. -/
def add_support_path (url : Str) : Str :=
  if strip url = [] then []
  else
    let cu := clean_url (strip url)
    if SUPPORT_PATH <:+: cu ∨ slashLoginSupport <:+ cu then cu
    else buildResult cu

/-- Number of positions at which `p` occurs as a contiguous substring. -/
def countOcc (p : Str) : Str → Nat
  | [] => if p <+: ([] : Str) then 1 else 0
  | c :: t => (if p <+: c :: t then 1 else 0) + countOcc p t

/-! ### Stage 1: entry set, static entries, sorting, export -/

abbrev Tup := Str × Str × Str × Str

/-- `entries.add(...)` on the growing entry set, modelled as an
    insertion-ordered duplicate-free list: exact tuple equality, no case
    folding.  (Python's set iteration order is unspecified; the claims
    proved below depend only on membership and multiplicity.) -/
def addEntry (s : List Tup) (t : Tup) : List Tup := if t ∈ s then s else s ++ [t]

/-- The set built by `extract_entries`, abstracted over the raw 4-tuples
    it adds (each already URL-normalized), in order of addition. -/
def dedupList (l : List Tup) : List Tup := l.foldl addEntry []

/-- `CustomURLProvider.get_custom_entries`. -/
def get_custom_entries : List Tup :=
  [ ("Oberli Pascal".toList, "POB".toList, "pob.socialweb.ch/".toList, "Oberli Pascal".toList),
    ("Fonseka Pius".toList, "PIF".toList, "pif.socialweb.ch/".toList, "Fonseka Pius".toList),
    ("Flückiger Simon".toList, "SIM".toList, "sim.socialweb.ch/".toList, "Flückiger Simon".toList),
    ("Lehmann Sandra".toList, "SAL".toList, "sal.socialweb.ch/".toList, "Lehmann Sandra".toList),
    ("Ambrosetti Chiara".toList, "CHA".toList, "cha.socialweb.ch/".toList, "Ambrosetti Chiara".toList),
    ("Moix Xenia".toList, "XEM".toList, "xem.socialweb.ch/".toList, "Moix Xenia".toList),
    ("Toma Marijana".toList, "MAT".toList, "mat.socialweb.ch/".toList, "Toma Marijana".toList),
    ("Daniel Schmocker".toList, "DAS".toList, "das.socialweb.ch/".toList, "Daniel Schmocker".toList),
    ("Team".toList, "Team".toList, "team.socialweb.ch/".toList, "Team".toList),
    ("Standard".toList, "Standard".toList, "standard.socialweb.ch/".toList, "Standard".toList),
    ("Handbuch".toList, "Handbuch".toList, "handbuch.socialweb.ch/".toList, "Handbuch".toList) ]

/-- `TXTExporter.HEADER`, without the trailing newline: the model
    represents the output file as its list of lines. -/
def HEADER : Str :=
  "Anzeigename;Ergänzung Anzeigename;Webadresse Geschäftlich;Projektleitung / Zuständigkeit".toList

/-- One exported line, `f"{entry[0]};{entry[1]};{entry[2]};{entry[3]}"`. -/
def entryLine (t : Tup) : Str := t.1 ++ ';' :: t.2.1 ++ ';' :: t.2.2.1 ++ ';' :: t.2.2.2

/-- Python `str.lower` (ASCII case mapping, see the header note). -/
def lowerStr (s : Str) : Str := s.map Char.toLower

/-- Lexicographic less-or-equal on code points: Python string comparison. -/
def lexLe : Str → Str → Bool
  | [], _ => true
  | _ :: _, [] => false
  | a :: s1, b :: s2 => if a < b then true else if a = b then lexLe s1 s2 else false

/-- The sort key of `process_excel_to_txt`: `key=lambda x: x[0].lower()`. -/
def tupleKeyLe (a b : Tup) : Prop := lexLe (lowerStr a.1) (lowerStr b.1) = true

instance : DecidableRel tupleKeyLe := fun a b => by
  unfold tupleKeyLe; infer_instance

/-- `process_excel_to_txt` from the point where raw 4-tuples enter the
    entry set: the extracted tuples are added in order, then the custom
    entries are added with `add_support_path` applied to their URL field. -/
def dedupUnion (extracted : List Tup) : List Tup :=
  get_custom_entries.foldl
    (fun s e => addEntry s (e.1, e.2.1, add_support_path e.2.2.1, e.2.2.2))
    (dedupList extracted)

/-- `sorted(list(entries), key=lambda x: x[0].lower())`, modelled with
    insertion sort (Python's sort is stable, but the relative order of
    equal keys is unspecified in the source anyway, because the set's
    iteration order is unspecified; the claims depend only on sortedness
    and on the underlying multiset). -/
def stage1Entries (extracted : List Tup) : List Tup :=
  List.insertionSort tupleKeyLe (dedupUnion extracted)

/-- `TXTExporter.export` composed with the above: the stage-1 output file
    as its list of lines. -/
def stage1Core (extracted : List Tup) : List Str :=
  HEADER :: (stage1Entries extracted).map entryLine

/-! ### Stage 2: `create_html.py` -/

/-- `Entry._normalize_url`: add `https://` when the url is truthy and
    starts with neither `http://` nor `https://`. -/
def normalize_url (url : Str) : Str :=
  if url ≠ [] ∧ ¬ httpL <+: url ∧ ¬ httpsL <+: url then httpsL ++ url else url

structure Entry where
  anzeigename : Str
  ergaenzung : Str
  webadresse : Str
  projektleitung : Str
deriving DecidableEq

/-- `Entry.__init__`: every field stripped, the url also normalized. -/
def mkEntry (a e w p : Str) : Entry :=
  ⟨strip a, strip e, normalize_url (strip w), strip p⟩

/-- Worker for `removeAll`, structurally recursive on a fuel argument that
    always dominates the length of the remaining list. -/
def removeAllFuel (pat : Str) : Nat → Str → Str
  | _, [] => []
  | 0, s => s
  | n + 1, c :: t =>
    if pat ≠ [] ∧ pat <+: c :: t then removeAllFuel pat n (t.drop (pat.length - 1))
    else c :: removeAllFuel pat n t

/-- Python `str.replace(pat, '')` for a nonempty pattern: remove all
    non-overlapping occurrences, left to right. -/
def removeAll (pat s : Str) : Str := removeAllFuel pat s.length s

/-- `webadresse.replace('https://', '').replace('http://', '')`. -/
def stripSchemes (s : Str) : Str := removeAll httpL (removeAll httpsL s)

/-- `Entry._compute_sort_string`. -/
def Entry.sort_string (e : Entry) : Str :=
  if e.anzeigename ≠ [] then e.anzeigename else stripSchemes e.webadresse

/-- Python `str.upper()` on one character, for characters whose uppercase
    image is a single character: ASCII letters are uppercased and the two
    one-to-one non-ASCII-to-ASCII mappings of UnicodeData are included —
    U+0131 (dotless i) uppercases to `I` and U+017F (long s) to `S`.
    Every other character above ASCII uppercases to itself or to a
    multi-character string (e.g. U+00DF → `SS`), the latter being outside
    this single-character model. -/
def pyUpper (c : Char) : Char :=
  if c = 'ı' then 'I'
  else if c = 'ſ' then 'S'
  else c.toUpper

/-- `Entry.get_first_letter`: the uppercased first character of the sort
    string when it lies in `string.ascii_uppercase`, else `'#'`. -/
def Entry.get_first_letter (e : Entry) : Char :=
  match e.sort_string with
  | [] => '#'
  | c :: _ => if 'A' ≤ pyUpper c ∧ pyUpper c ≤ 'Z' then pyUpper c else '#'

/-- Python `str.split(';')`. -/
def splitOnC (c : Char) : Str → List Str
  | [] => [[]]
  | x :: t =>
    match splitOnC c t with
    | [] => [[]]
    | h :: r => if x = c then [] :: h :: r else (x :: h) :: r

/-- The body of `TXTParser.parse`'s loop for one line: strip, skip blank
    lines, split on `';'`, require at least 3 fields, keep the record only
    when the raw first or third field is truthy, and default the missing
    owner field to the empty string. -/
def parseLine (l : Str) : Option Entry :=
  let s := strip l
  if s = [] then none
  else
    let ps := splitOnC ';' s
    if 3 ≤ ps.length then
      if ps.getD 0 [] ≠ [] ∨ ps.getD 2 [] ≠ [] then
        some (mkEntry (ps.getD 0 []) (ps.getD 1 []) (ps.getD 2 []) (ps.getD 3 []))
      else none
    else none

/-- `TXTParser.parse` on the list of lines of the file: the header line is
    skipped and each remaining line contributes at most one entry. -/
def parse (lines : List Str) : List Entry := (lines.drop 1).filterMap parseLine

/-- `TXTParser.parse` including its exception handlers: `none` stands for
    a missing file or any other read error, both of which yield `[]`. -/
def parseFile (file : Option (List Str)) : List Entry :=
  match file with
  | none => []
  | some lines => parse lines

/-- The sort key of `HTMLGenerator._group_entries`:
    `key=lambda e: e.sort_string.lower()`. -/
def entryKeyLe (a b : Entry) : Prop :=
  lexLe (lowerStr a.sort_string) (lowerStr b.sort_string) = true

instance : DecidableRel entryKeyLe := fun a b => by
  unfold entryKeyLe; infer_instance

/-- Append `e` to the bucket of `k` in an insertion-ordered association
    list (`collections.defaultdict(list)` preserves first-use key order). -/
def addToBucket (k : Char) (e : Entry) :
    List (Char × List Entry) → List (Char × List Entry)
  | [] => [(k, [e])]
  | (k2, es) :: r =>
    if k = k2 then (k2, es ++ [e]) :: r else (k2, es) :: addToBucket k e r

/-- `HTMLGenerator._group_entries`: sort case-insensitively by sort
    string, then bucket by `get_first_letter`. -/
def group_entries (es : List Entry) : List (Char × List Entry) :=
  (List.insertionSort entryKeyLe es).foldl
    (fun g e => addToBucket (Entry.get_first_letter e) e g) []

/-- `generate_html`: parse the input file; an empty entry list is reported
    as failure with no output written, otherwise the generator runs and
    the written document is modelled by its grouped entry structure (the
    surrounding literal markup carries no further record data). -/
def generate_html (file : Option (List Str)) :
    Option (List (Char × List Entry)) × Bool :=
  match parseFile file with
  | [] => (none, false)
  | es => (some (group_entries es), true)

/-- Modelled from the spec: "prefixing `https://` if it lacks any scheme".
    A URI scheme per RFC 3986: an ASCII letter followed by letters,
    digits, `'+'`, `'-'` or `'.'`, terminated by `':'`.  This definition
    follows the spec's words; it is compared against the source's
    `_normalize_url`, which tests only for the two literal prefixes
    `http://` and `https://`. -/
def has_scheme (s : Str) : Bool :=
  match s with
  | [] => false
  | c :: _ =>
    let pre := s.takeWhile (fun x => x.isAlphanum || x == '+' || x == '-' || x == '.')
    c.isAlpha && (s.getD pre.length ' ' == ':')

example : clean_url "https://www.Foo.ch/a".toList = "Foo.ch/a".toList := by decide
example : add_support_path "foo.socialweb.ch".toList
    = "foo.socialweb.ch/login/support/".toList := by decide
example : add_support_path " https://www.bar.ch/x?q=1#f ".toList
    = "bar.ch/x/login/support/?q=1#f".toList := by decide
example : add_support_path "pob.socialweb.ch/login/support/".toList
    = "pob.socialweb.ch/login/support/".toList := by decide
example : add_support_path "example.ch/login/supportx".toList
    = "example.ch/login/supportx".toList := by decide
example : add_support_path "www.www.www.foo".toList
    = "www.foo/login/support/".toList := by decide
example : add_support_path (add_support_path "www.www.www.foo".toList)
    = "foo/login/support/".toList := by decide
example : add_support_path "a?b #".toList = "a/login/support/?b ".toList := by decide
example : add_support_path "/p".toList = "/p/login/support/".toList := by decide
example : add_support_path "a/b;c".toList = "a/b/login/support/".toList := by decide
example : countOcc SUPPORT_PATH ("x/login/support/y".toList) = 1 := by decide

example : splitOnC ';' "a;;b".toList = ["a".toList, [], "b".toList] := by decide
example : splitOnC ';' ([] : Str) = [[]] := by decide
example : (parse [HEADER, "Max Muster;;foo.socialweb.ch/login/support/;Unbekannt".toList]).length = 1 := by decide
example : parse [HEADER, ";; ;x".toList]
    = [mkEntry [] [] " ".toList "x".toList] := by decide
example : normalize_url "ftp://x.ch".toList = "https://ftp://x.ch".toList := by decide
example : has_scheme "ftp://x.ch".toList = true := by decide
example : has_scheme "example.ch".toList = false := by decide
example : (mkEntry [] [] "example.ch".toList []).get_first_letter = 'E' := by decide
example : (mkEntry "Ägeri".toList [] [] []).get_first_letter = '#' := by decide
example : stage1Core [] ≠ [] := by decide

theorem lexLe_total : ∀ a b : Str, lexLe a b = true ∨ lexLe b a = true := by
  intro a
  induction a with
  | nil => intro b; left; rfl
  | cons x s ih =>
    intro b
    cases b with
    | nil => right; rfl
    | cons y t =>
      simp only [lexLe]
      rcases lt_trichotomy x y with h | h | h
      · left; simp [h]
      · subst h
        rcases ih t with h2 | h2
        · left; simp [h2]
        · right; simp [h2]
      · right; simp [h]

theorem lexLe_trans : ∀ a b c : Str, lexLe a b = true → lexLe b c = true →
    lexLe a c = true := by
  intro a
  induction a with
  | nil => intro b c _ _; rfl
  | cons x s ih =>
    intro b c h1 h2
    cases b with
    | nil => simp [lexLe] at h1
    | cons y t =>
      cases c with
      | nil => simp [lexLe] at h2
      | cons z u =>
        simp only [lexLe] at h1 h2 ⊢
        rcases lt_trichotomy x y with hxy | hxy | hxy
        · rcases lt_trichotomy y z with hyz | hyz | hyz
          · simp [lt_trans hxy hyz]
          · subst hyz; simp [hxy]
          · rw [if_neg (lt_asymm hyz), if_neg (ne_of_gt hyz)] at h2
            simp at h2
        · subst hxy
          rw [if_neg (lt_irrefl x), if_pos rfl] at h1
          rcases lt_trichotomy x z with hxz | hxz | hxz
          · simp [hxz]
          · subst hxz
            rw [if_neg (lt_irrefl x), if_pos rfl] at h2 ⊢
            exact ih t u h1 h2
          · rw [if_neg (lt_asymm hxz), if_neg (ne_of_gt hxz)] at h2
            simp at h2
        · rw [if_neg (lt_asymm hxy), if_neg (ne_of_gt hxy)] at h1
          simp at h1

instance : IsTotal Tup tupleKeyLe := ⟨fun a b => lexLe_total _ _⟩

instance : IsTrans Tup tupleKeyLe := ⟨fun a b c => lexLe_trans _ _ _⟩

instance : IsTotal Entry entryKeyLe := ⟨fun a b => lexLe_total _ _⟩

instance : IsTrans Entry entryKeyLe := ⟨fun a b c => lexLe_trans _ _ _⟩


/-! ### Generic list facts used throughout -/

theorem nilPre (l : Str) : [] <+: l := ⟨l, rfl⟩

theorem preOfTake (l : Str) (n : Nat) : l.take n <+: l := ⟨l.drop n, l.take_append_drop n⟩

theorem sufOfDrop (l : Str) (n : Nat) : l.drop n <:+ l := ⟨l.take n, l.take_append_drop n⟩

theorem takeWhilePre (p : Char → Bool) (l : Str) : l.takeWhile p <+: l :=
  ⟨l.dropWhile p, l.takeWhile_append_dropWhile p⟩

theorem dropWhileSuf (p : Char → Bool) (l : Str) : l.dropWhile p <:+ l :=
  ⟨l.takeWhile p, l.takeWhile_append_dropWhile p⟩

theorem preEq {l₁ l₂ : Str} (h : l₁ <+: l₂) : l₁ = l₂.take l₁.length := by
  obtain ⟨t, rfl⟩ := h
  simp

theorem sufEq {l₁ l₂ : Str} (h : l₁ <:+ l₂) : l₁ = l₂.drop (l₂.length - l₁.length) := by
  obtain ⟨t, rfl⟩ := h
  simp

theorem revPreOfSuf {l₁ l₂ : Str} (h : l₁ <:+ l₂) : l₁.reverse <+: l₂.reverse := by
  obtain ⟨t, rfl⟩ := h
  exact ⟨t.reverse, by simp⟩

theorem preOfPreSuf {p m l : Str} (h1 : p <+: m) (h2 : m <:+ l) : p <:+: l := by
  obtain ⟨t, rfl⟩ := h1
  obtain ⟨u, rfl⟩ := h2
  exact ⟨u, t, by simp [List.append_assoc]⟩

theorem infOfSufSuf {p m l : Str} (h1 : p <:+ m) (h2 : m <:+: l) : p <:+: l :=
  h1.isInfix.trans h2

theorem consPreHead {p : Str} {c : Char} {r : Str} (h : p <+: c :: r) :
    p = [] ∨ ∃ q, p = c :: q ∧ q <+: r := by
  cases p with
  | nil => exact Or.inl rfl
  | cons b u =>
    obtain ⟨hb, hu⟩ := List.cons_prefix_cons.mp h
    exact Or.inr ⟨u, by rw [hb], hu⟩

theorem pre_split {p : Str} : ∀ {x y : Str}, p <+: x ++ y →
    p <+: x ∨ (x <+: p ∧ p.drop x.length <+: y) := by
  intro x
  induction x generalizing p with
  | nil => intro y h; exact Or.inr ⟨nilPre _, by simpa using h⟩
  | cons a t ih =>
    intro y h
    cases p with
    | nil => exact Or.inl (nilPre _)
    | cons b q =>
      rw [List.cons_append] at h
      obtain ⟨hb, hq⟩ := List.cons_prefix_cons.mp h
      subst hb
      rcases ih hq with h1 | ⟨h2, h3⟩
      · exact Or.inl (List.cons_prefix_cons.mpr ⟨rfl, h1⟩)
      · exact Or.inr ⟨List.cons_prefix_cons.mpr ⟨rfl, h2⟩, by simpa using h3⟩

theorem infConsCases {p : Str} {a : Char} {l : Str} (h : p <:+: a :: l) :
    p <+: a :: l ∨ p <:+: l := by
  obtain ⟨s, t, hst⟩ := h
  cases s with
  | nil => exact Or.inl ⟨t, by simpa using hst⟩
  | cons b u =>
    right
    rw [List.cons_append, List.cons_append] at hst
    injection hst with h1 h2
    exact ⟨u, t, by simpa [List.append_assoc] using h2⟩

theorem sufConsCases {p : Str} {a : Char} {l : Str} (h : p <:+ a :: l) :
    p = a :: l ∨ p <:+ l := by
  obtain ⟨u, hu⟩ := h
  cases u with
  | nil => exact Or.inl (by simpa using hu)
  | cons b v =>
    rw [List.cons_append] at hu
    injection hu with h1 h2
    exact Or.inr ⟨v, h2⟩

theorem infConsExt {p : Str} {a : Char} {l : Str} (h : p <:+: l) : p <:+: a :: l := by
  obtain ⟨s, t, rfl⟩ := h
  exact ⟨a :: s, t, rfl⟩

theorem sufConsExt {p : Str} {a : Char} {l : Str} (h : p <:+ l) : p <:+ a :: l := by
  obtain ⟨u, rfl⟩ := h
  exact ⟨a :: u, rfl⟩

theorem inf_split {p : Str} : ∀ {x y : Str}, p <:+: x ++ y →
    p <:+: x ∨ p <:+: y ∨
      ∃ p₁ p₂, p = p₁ ++ p₂ ∧ p₁ ≠ [] ∧ p₂ ≠ [] ∧ p₁ <:+ x ∧ p₂ <+: y := by
  intro x
  induction x generalizing p with
  | nil => intro y h; exact Or.inr (Or.inl (by simpa using h))
  | cons a t ih =>
    intro y h
    rw [List.cons_append] at h
    rcases infConsCases h with hpre | hinf
    · cases p with
      | nil => exact Or.inl ⟨[], a :: t, by simp⟩
      | cons b q =>
        obtain ⟨hb, hq⟩ := List.cons_prefix_cons.mp hpre
        subst hb
        rcases pre_split hq with h1 | ⟨h2, h3⟩
        · exact Or.inl (List.cons_prefix_cons.mpr ⟨rfl, h1⟩).isInfix
        · obtain ⟨r, rfl⟩ := h2
          by_cases hrest : r = []
          · subst hrest
            exact Or.inl (⟨[], [], by simp⟩ : b :: (t ++ []) <:+: b :: t)
          · refine Or.inr (Or.inr ⟨b :: t, r, by simp, by simp, hrest, ⟨[], rfl⟩, ?_⟩)
            simpa using h3
    · rcases ih hinf with h1 | h2 | ⟨p₁, p₂, hsplit, hne1, hne2, hsuf, hpre2⟩
      · exact Or.inl (infConsExt h1)
      · exact Or.inr (Or.inl h2)
      · exact Or.inr (Or.inr ⟨p₁, p₂, hsplit, hne1, hne2, sufConsExt hsuf, hpre2⟩)

theorem suf_split {p x y : Str} (h : p <:+ x ++ y) :
    p <:+ y ∨ ∃ p₁, p = p₁ ++ y ∧ p₁ <:+ x ∧ p₁ ≠ [] := by
  obtain ⟨s, hs⟩ := h
  rcases pre_split (p := s) ⟨p, hs⟩ with h1 | ⟨h2, h3⟩
  · obtain ⟨r, rfl⟩ := h1
    rw [List.append_assoc] at hs
    have hp : p = r ++ y := List.append_cancel_left hs
    by_cases hr : r = []
    · subst hr
      exact Or.inl ⟨[], by simpa using hp⟩
    · exact Or.inr ⟨r, hp, ⟨s, rfl⟩, hr⟩
  · obtain ⟨r, rfl⟩ := h2
    left
    rw [List.append_assoc] at hs
    have := List.append_cancel_left hs
    exact ⟨r, this⟩

theorem memOfInf {p l : Str} {c : Char} (h : p <:+: l) (hc : c ∈ p) : c ∈ l :=
  h.subset hc

theorem preHeadEq {c : Char} {t b : Str} (h : c :: t <+: b) : ∃ u, b = c :: u := by
  obtain ⟨r, rfl⟩ := h
  exact ⟨t ++ r, rfl⟩

theorem dropWhileHeadFalse {p : Char → Bool} {s : Str} {c : Char} {t : Str}
    (h : s.dropWhile p = c :: t) : p c = false := by
  induction s with
  | nil => simp at h
  | cons a u ih =>
    rw [List.dropWhile_cons] at h
    by_cases hp : p a = true
    · exact ih (by rw [if_pos hp] at h; exact h)
    · rw [if_neg hp] at h
      injection h with h1 h2
      subst h1
      simpa using hp

theorem dropWhileAllFalse {p : Char → Bool} {s : Str}
    (h : ∀ c ∈ s, p c = false) : s.dropWhile p = s := by
  cases s with
  | nil => rfl
  | cons a t =>
    rw [List.dropWhile_cons, h a (List.mem_cons_self a t)]
    simp

theorem stripAllNoWs {s : Str} (h : ∀ c ∈ s, c.isWhitespace = false) : strip s = s := by
  unfold strip
  rw [dropWhileAllFalse (fun c hc => h c hc)]
  rw [dropWhileAllFalse (fun c hc => h c (List.mem_reverse.mp hc))]
  exact List.reverse_reverse s

theorem revDropPre (p : Char → Bool) (s : Str) : (s.reverse.dropWhile p).reverse <+: s := by
  have h2 := revPreOfSuf (dropWhileSuf p s.reverse)
  simpa using h2

theorem stripPreDropWhile (s : Str) : strip s <+: s.dropWhile Char.isWhitespace :=
  revDropPre _ _

theorem stripInf (s : Str) : strip s <:+: s :=
  preOfPreSuf (stripPreDropWhile s) (dropWhileSuf _ s)

theorem stripHead {s : Str} {c : Char} {t : Str} (h : strip s = c :: t) :
    c.isWhitespace = false := by
  have hp := stripPreDropWhile s
  rw [h] at hp
  obtain ⟨u, hu⟩ := preHeadEq hp
  exact dropWhileHeadFalse hu

theorem stripRevHead {s : Str} {c : Char} {t : Str} (h : (strip s).reverse = c :: t) :
    c.isWhitespace = false := by
  unfold strip at h
  rw [List.reverse_reverse] at h
  exact dropWhileHeadFalse h

theorem strip_strip (s : Str) : strip (strip s) = strip s := by
  have h1 : (strip s).dropWhile Char.isWhitespace = strip s := by
    cases hx : strip s with
    | nil => rfl
    | cons c t => rw [List.dropWhile_cons, stripHead hx]; simp
  have h2 : (strip s).reverse.dropWhile Char.isWhitespace = (strip s).reverse := by
    cases hx : (strip s).reverse with
    | nil => rfl
    | cons c t => rw [List.dropWhile_cons, stripRevHead hx]; simp
  show (((strip s).dropWhile _).reverse.dropWhile _).reverse = strip s
  rw [h1, h2, List.reverse_reverse]

theorem dropPreNot {p s : Str} (h : ¬ p <+: s) : dropPre p s = s := if_neg h

theorem dropPreSuf (p s : Str) : dropPre p s <:+ s := by
  unfold dropPre
  split
  · exact sufOfDrop s p.length
  · exact List.suffix_refl s

theorem cleanSufStrip (url : Str) : clean_url url <:+ strip url :=
  (dropPreSuf _ _).trans ((dropPreSuf _ _).trans (dropPreSuf _ _))

theorem clean_strip (url : Str) : clean_url (strip url) = clean_url url := by
  unfold clean_url
  rw [strip_strip]

/-! ### Counting occurrences of the support path -/

theorem countOcc_nil (p : Str) : countOcc p [] = if p <+: ([] : Str) then 1 else 0 := rfl

theorem countOcc_cons (p : Str) (c : Char) (t : Str) :
    countOcc p (c :: t) = (if p <+: c :: t then 1 else 0) + countOcc p t := rfl

theorem countOcc_zero {p : Str} (hp : p ≠ []) :
    ∀ {s : Str}, ¬ p <:+: s → countOcc p s = 0 := by
  intro s
  induction s with
  | nil =>
    intro _
    rw [countOcc_nil, if_neg]
    intro hpre
    obtain ⟨t, ht⟩ := hpre
    exact hp (List.append_eq_nil.mp ht).1
  | cons c t ih =>
    intro h
    rw [countOcc_cons, if_neg (fun hpre => h hpre.isInfix),
      ih (fun hinf => h (infConsExt hinf))]

theorem countOcc_left {p C : Str} :
    ∀ {A : Str}, (∀ t, t <:+ A → t ≠ [] → ¬ p <+: t ++ C) →
      countOcc p (A ++ C) = countOcc p C := by
  intro A
  induction A with
  | nil => intro _; rfl
  | cons a t ih =>
    intro h
    rw [List.cons_append, countOcc_cons,
      if_neg (show ¬ p <+: a :: (t ++ C) from
        h (a :: t) (List.suffix_refl _) (by simp)), Nat.zero_add]
    exact ih (fun u hu hne => h u (sufConsExt hu) hne)

theorem periodFact :
    ∀ k, k < 15 → SUPPORT_PATH.drop k <+: SUPPORT_PATH → k = 0 ∨ k = 14 := by decide

theorem countOcc_P_PB {B : Str} (hB : ¬ loginSupport <:+: B) :
    countOcc SUPPORT_PATH (SUPPORT_PATH ++ B) = 1 := by
  have hPB : ¬ SUPPORT_PATH <:+: B :=
    fun h => hB ((show loginSupport <:+: SUPPORT_PATH by decide).trans h)
  have hcond : ∀ t, t <:+ ("login/support/".toList : Str) → t ≠ [] →
      ¬ SUPPORT_PATH <+: t ++ B := by
    intro t hsuf hne hpre
    have hpos : 0 < t.length := List.length_pos.mpr hne
    have hlen : t.length ≤ 14 := by
      have h14 : ("login/support/".toList : Str).length = 14 := by decide
      have := hsuf.length_le
      omega
    have htP : t <:+ SUPPORT_PATH :=
      hsuf.trans ⟨['/'], rfl⟩
    rcases pre_split hpre with h1 | ⟨h2, h3⟩
    · have h15 : (15 : Nat) ≤ t.length := by
        have hP : SUPPORT_PATH.length = 15 := by decide
        have := h1.length_le
        omega
      omega
    · have htEq := sufEq htP
      have hP : SUPPORT_PATH.length = 15 := by decide
      rw [hP] at htEq
      have hdropPre : SUPPORT_PATH.drop (15 - t.length) <+: SUPPORT_PATH := by
        rw [← htEq]; exact h2
      rcases periodFact (15 - t.length) (by omega) hdropPre with h0 | h14
      · omega
      · have ht1 : t.length = 1 := by omega
        rw [ht1] at h3
        have hls : loginSupport <+: SUPPORT_PATH.drop 1 := ⟨['/'], rfl⟩
        exact hB ((hls.trans h3).isInfix)
  have hsplit : SUPPORT_PATH ++ B = '/' :: ("login/support/".toList ++ B) := rfl
  rw [hsplit, countOcc_cons,
    if_pos (show SUPPORT_PATH <+: '/' :: ("login/support/".toList ++ B) from ⟨B, rfl⟩)]
  rw [countOcc_left hcond, countOcc_zero (by decide) hPB]

theorem countOcc_one {A B : Str}
    (hA1 : ¬ SUPPORT_PATH <:+: A) (hA2 : ¬ slashLoginSupport <:+ A)
    (hB : ¬ loginSupport <:+: B) :
    countOcc SUPPORT_PATH (A ++ SUPPORT_PATH ++ B) = 1 := by
  rw [List.append_assoc]
  have hcond : ∀ t, t <:+ A → t ≠ [] →
      ¬ SUPPORT_PATH <+: t ++ (SUPPORT_PATH ++ B) := by
    intro t hsuf hne hpre
    rcases pre_split hpre with h1 | ⟨h2, h3⟩
    · exact hA1 (preOfPreSuf h1 hsuf)
    · have hP : SUPPORT_PATH.length = 15 := by decide
      by_cases hlen : t.length = 15
      · have ht : t = SUPPORT_PATH := h2.eq_of_length (by omega)
        rw [ht] at hsuf
        exact hA1 hsuf.isInfix
      · have hlt : t.length < 15 := by
          have := h2.length_le
          omega
        rcases pre_split h3 with h4 | ⟨h5, _⟩
        · have hpos : 0 < t.length := List.length_pos.mpr hne
          rcases periodFact t.length hlt h4 with h0 | h14
          · omega
          · have htk := preEq h2
            rw [h14] at htk
            have ht : t = slashLoginSupport := by rw [htk]; decide
            rw [ht] at hsuf
            exact hA2 hsuf
        · have hle := h5.length_le
          have hpos : 0 < t.length := List.length_pos.mpr hne
          rw [List.length_drop] at hle
          omega
  rw [countOcc_left hcond]
  exact countOcc_P_PB hB

/-! ### Shape of the parsed URL components -/

theorem preRefl (l : Str) : l <+: l := ⟨[], List.append_nil l⟩

theorem revSufOfPre {a b : Str} (h : a <+: b) : a.reverse <:+ b.reverse := by
  obtain ⟨t, rfl⟩ := h
  exact ⟨t.reverse, by simp⟩

theorem sufOfSufPre {p m l : Str} (h1 : p <:+ m) (h2 : m <+: l) : p <:+: l := by
  obtain ⟨u, rfl⟩ := h1
  obtain ⟨t, rfl⟩ := h2
  exact ⟨u, t, by simp [List.append_assoc]⟩

theorem headEqOfPre {p s : Str} (h : p <+: s) (hp : p ≠ []) : p.head? = s.head? := by
  cases p with
  | nil => exact absurd rfl hp
  | cons a q =>
    obtain ⟨u, hu⟩ := preHeadEq h
    rw [hu]
    rfl

theorem takeWhileConsCases {p : Char → Bool} {s : Str} {c : Char} {t : Str}
    (h : s.takeWhile p = c :: t) : ∃ u, s = c :: u ∧ p c = true ∧ u.takeWhile p = t := by
  cases s with
  | nil => simp at h
  | cons a u =>
    rw [List.takeWhile_cons] at h
    by_cases hp : p a = true
    · rw [if_pos hp] at h
      injection h with h1 h2
      subst h1
      exact ⟨u, rfl, hp, h2⟩
    · rw [if_neg hp] at h
      simp at h

theorem takeWhileNilCases {p : Char → Bool} {s : Str}
    (h : s.takeWhile p = []) : s = [] ∨ ∃ c t, s = c :: t ∧ p c = false := by
  cases s with
  | nil => exact Or.inl rfl
  | cons a u =>
    rw [List.takeWhile_cons] at h
    by_cases hp : p a = true
    · rw [if_pos hp] at h; simp at h
    · exact Or.inr ⟨a, u, rfl, by simpa using hp⟩

theorem parseHttps_netloc (cu : Str) :
    (parseHttps cu).netloc
      = ((cu.takeWhile (fun x => !(x == '#'))).takeWhile (fun x => !(x == '?'))).takeWhile
          (fun x => !(x == '/')) := rfl

theorem parseHttps_path (cu : Str) :
    (parseHttps cu).path
      = dropParams (((cu.takeWhile (fun x => !(x == '#'))).takeWhile
          (fun x => !(x == '?'))).drop (parseHttps cu).netloc.length) := rfl

theorem parseHttps_query (cu : Str) :
    (parseHttps cu).query
      = ((cu.takeWhile (fun x => !(x == '#'))).dropWhile (fun x => !(x == '?'))).drop 1 := rfl

theorem parseHttps_frag (cu : Str) :
    (parseHttps cu).fragment = (cu.dropWhile (fun x => !(x == '#'))).drop 1 := rfl

theorem netlocPre (cu : Str) : (parseHttps cu).netloc <+: cu := by
  rw [parseHttps_netloc]
  exact (takeWhilePre _ _).trans ((takeWhilePre _ _).trans (takeWhilePre _ _))

theorem noSlashNetloc (cu : Str) : '/' ∉ (parseHttps cu).netloc := by
  rw [parseHttps_netloc]
  intro hm
  have := List.mem_takeWhile_imp hm
  simp at this

theorem lastSegSuf (p : Str) : lastSeg p <:+ p := by
  have h2 := revSufOfPre (takeWhilePre (fun x => !(x == '/')) p.reverse)
  simpa using h2

theorem dropParamsPre (p : Str) : dropParams p <+: p := by
  unfold dropParams
  split
  · split
    · split
      · have hEq := sufEq (lastSegSuf p)
        obtain ⟨r, hr⟩ := takeWhilePre (fun x => !(x == ';')) (lastSeg p)
        refine ⟨r, ?_⟩
        rw [List.append_assoc, hr]
        nth_rewrite 2 [hEq]
        exact List.take_append_drop _ p
      · exact preRefl p
    · exact takeWhilePre _ _
  · exact preRefl p

theorem pathInf (cu : Str) : (parseHttps cu).path <:+: cu := by
  rw [parseHttps_path]
  exact (dropParamsPre _).isInfix.trans
    (sufOfSufPre (sufOfDrop _ _) ((takeWhilePre _ _).trans (takeWhilePre _ _)))

theorem queryInf (cu : Str) : (parseHttps cu).query <:+: cu := by
  rw [parseHttps_query]
  exact sufOfSufPre ((sufOfDrop _ _).trans (dropWhileSuf _ _)) (takeWhilePre _ _)

theorem fragSuf (cu : Str) : (parseHttps cu).fragment <:+ cu := by
  rw [parseHttps_frag]
  exact (sufOfDrop _ _).trans (dropWhileSuf _ _)

theorem rstripPre (s : Str) : rstripSlash s <+: s := revDropPre _ _

theorem stripSlashInf (s : Str) : stripSlash s <:+: s :=
  preOfPreSuf (rstripPre _) (dropWhileSuf _ s)

theorem stripSlashHead {s : Str} {c : Char} {t : Str} (h : stripSlash s = c :: t) :
    c ≠ '/' := by
  have hp : stripSlash s <+: s.dropWhile (fun x => x == '/') := rstripPre _
  rw [h] at hp
  obtain ⟨u, hu⟩ := preHeadEq hp
  have := dropWhileHeadFalse hu
  simpa using this

theorem netlocNilCases {cu : Str} (h : (parseHttps cu).netloc = []) :
    cu = [] ∨ ∃ c t, cu = c :: t ∧ (c = '/' ∨ c = '?' ∨ c = '#') := by
  rw [parseHttps_netloc] at h
  rcases takeWhileNilCases h with h1 | ⟨c, t, hct, hc⟩
  · rcases takeWhileNilCases h1 with h2 | ⟨c, t, hct, hc⟩
    · rcases takeWhileNilCases h2 with h3 | ⟨c, t, hct, hc⟩
      · exact Or.inl h3
      · exact Or.inr ⟨c, t, hct, Or.inr (Or.inr (by simpa using hc))⟩
    · obtain ⟨u, hcu, _, _⟩ := takeWhileConsCases hct
      exact Or.inr ⟨c, u, hcu, Or.inr (Or.inl (by simpa using hc))⟩
  · obtain ⟨u1, hu1, _, _⟩ := takeWhileConsCases hct
    obtain ⟨u2, hu2, _, _⟩ := takeWhileConsCases hu1
    exact Or.inr ⟨c, u2, hu2, Or.inl (by simpa using hc)⟩

/-! ### The rebuilt address never starts with a stripped prefix -/

theorem headMismatch {p s : Str} {c : Char} (hs : s.head? = some c)
    (hp : p.head? ≠ some c) (hne : p ≠ []) : ¬ p <+: s :=
  fun h => hp ((headEqOfPre h hne).trans hs)

theorem headSomeOfPre {p : Str} {c : Char} {t : Str} (h : p <+: c :: t) (hne : p ≠ []) :
    p.head? = some c := (headEqOfPre h hne).trans rfl

theorem noHttpsPre {n t : Str} (hn : '/' ∉ n) (ht : ∀ u, t ≠ '/' :: u) :
    ¬ httpsL <+: n ++ '/' :: t := by
  intro h
  rcases pre_split h with h1 | ⟨h2, h3⟩
  · exact hn (memOfInf h1.isInfix (by decide))
  · have h8 : httpsL.length = 8 := by decide
    have hle : n.length ≤ 8 := by have := h2.length_le; omega
    have hneq := preEq h2
    generalize hk : n.length = k at hle hneq h3
    subst hneq
    interval_cases k
    · exact absurd (headSomeOfPre h3 (by decide)) (by decide)
    · exact absurd (headSomeOfPre h3 (by decide)) (by decide)
    · exact absurd (headSomeOfPre h3 (by decide)) (by decide)
    · exact absurd (headSomeOfPre h3 (by decide)) (by decide)
    · exact absurd (headSomeOfPre h3 (by decide)) (by decide)
    · exact absurd (headSomeOfPre h3 (by decide)) (by decide)
    · have h3' : ('/' :: '/' :: [] : Str) <+: '/' :: t := h3
      obtain ⟨_, hq⟩ := List.cons_prefix_cons.mp h3'
      obtain ⟨u, hu⟩ := preHeadEq hq
      exact ht u hu
    · exact hn (by decide)
    · exact hn (by decide)

theorem noHttpPre {n t : Str} (hn : '/' ∉ n) (ht : ∀ u, t ≠ '/' :: u) :
    ¬ httpL <+: n ++ '/' :: t := by
  intro h
  rcases pre_split h with h1 | ⟨h2, h3⟩
  · exact hn (memOfInf h1.isInfix (by decide))
  · have h7 : httpL.length = 7 := by decide
    have hle : n.length ≤ 7 := by have := h2.length_le; omega
    have hneq := preEq h2
    generalize hk : n.length = k at hle hneq h3
    subst hneq
    interval_cases k
    · exact absurd (headSomeOfPre h3 (by decide)) (by decide)
    · exact absurd (headSomeOfPre h3 (by decide)) (by decide)
    · exact absurd (headSomeOfPre h3 (by decide)) (by decide)
    · exact absurd (headSomeOfPre h3 (by decide)) (by decide)
    · exact absurd (headSomeOfPre h3 (by decide)) (by decide)
    · have h3' : ('/' :: '/' :: [] : Str) <+: '/' :: t := h3
      obtain ⟨_, hq⟩ := List.cons_prefix_cons.mp h3'
      obtain ⟨u, hu⟩ := preHeadEq hq
      exact ht u hu
    · exact hn (by decide)
    · exact hn (by decide)

theorem noWwwPre {n t : Str} (hn : '/' ∉ n) (hww : ¬ wwwL <+: n) :
    ¬ wwwL <+: n ++ '/' :: t := by
  intro h
  rcases pre_split h with h1 | ⟨h2, h3⟩
  · exact hww h1
  · have h4 : wwwL.length = 4 := by decide
    have hle : n.length ≤ 4 := by have := h2.length_le; omega
    have hneq := preEq h2
    generalize hk : n.length = k at hle hneq h3
    subst hneq
    interval_cases k
    · exact absurd (headSomeOfPre h3 (by decide)) (by decide)
    · exact absurd (headSomeOfPre h3 (by decide)) (by decide)
    · exact absurd (headSomeOfPre h3 (by decide)) (by decide)
    · exact absurd (headSomeOfPre h3 (by decide)) (by decide)
    · exact hww (by decide)

/-! ### Evaluating `add_support_path` along its branches -/

theorem asp_sub {url : Str} (h0 : strip url ≠ [])
    (hs : SUPPORT_PATH <:+: clean_url url ∨ slashLoginSupport <:+ clean_url url) :
    add_support_path url = clean_url url := by
  simp only [add_support_path]
  rw [clean_strip, if_neg h0, if_pos hs]

theorem asp_build {url : Str} (h0 : strip url ≠ [])
    (hni : ¬ (SUPPORT_PATH <:+: clean_url url ∨ slashLoginSupport <:+ clean_url url)) :
    add_support_path url = buildResult (clean_url url) := by
  simp only [add_support_path]
  rw [clean_strip, if_neg h0, if_neg hni]

theorem asp_fixed {R : Str} (h0 : R ≠ [])
    (hws : ∀ c ∈ R, c.isWhitespace = false)
    (h1 : ¬ httpsL <+: R) (h2 : ¬ httpL <+: R) (h3 : ¬ wwwL <+: R)
    (h4 : SUPPORT_PATH <:+: R) :
    add_support_path R = R := by
  have hstrip : strip R = R := stripAllNoWs hws
  have hclean : clean_url R = R := by
    unfold clean_url
    rw [hstrip, dropPreNot h1, dropPreNot h2, dropPreNot h3]
  simp only [add_support_path]
  rw [hstrip, hclean, if_neg h0, if_pos (Or.inl h4)]

theorem buildResult_nilNetloc {cu : Str} (hn : (parseHttps cu).netloc = []) :
    buildResult cu = rstripSlash cu ++ SUPPORT_PATH := by
  simp only [buildResult]
  rw [if_pos hn]

theorem buildResult_form {cu : Str} (hn : (parseHttps cu).netloc ≠ [])
    (hcp : ¬ loginSupport <:+: stripSlash (parseHttps cu).path) :
    buildResult cu =
      (dropPre wwwL (parseHttps cu).netloc ++
        (if stripSlash (parseHttps cu).path = [] then ([] : Str)
         else '/' :: stripSlash (parseHttps cu).path)) ++
      SUPPORT_PATH ++
      ((if (parseHttps cu).query = [] then ([] : Str)
        else '?' :: (parseHttps cu).query) ++
       (if (parseHttps cu).fragment = [] then ([] : Str)
        else '#' :: (parseHttps cu).fragment)) := by
  simp only [buildResult]
  rw [if_neg hn, if_neg hcp]
  by_cases hcpe : stripSlash (parseHttps cu).path = [] <;>
    by_cases hq : (parseHttps cu).query = [] <;>
    by_cases hf : (parseHttps cu).fragment = [] <;>
    simp [hcpe, hq, hf, List.append_assoc]

theorem nilNetlocNoPre {cu : Str} (hn : (parseHttps cu).netloc = []) :
    ¬ httpsL <+: rstripSlash cu ++ SUPPORT_PATH ∧
    ¬ httpL <+: rstripSlash cu ++ SUPPORT_PATH ∧
    ¬ wwwL <+: rstripSlash cu ++ SUPPORT_PATH := by
  rcases netlocNilCases hn with hnil | ⟨c, t, hct, hc⟩
  · rw [hnil]
    exact ⟨by decide, by decide, by decide⟩
  · cases hr : rstripSlash cu with
    | nil =>
      exact ⟨by decide, by decide, by decide⟩
    | cons d r =>
      have hd : d = c := by
        have hp := rstripPre cu
        rw [hr, hct] at hp
        exact (List.cons_prefix_cons.mp hp).1
      have hhead : ((d :: r) ++ SUPPORT_PATH).head? = some d := rfl
      refine ⟨headMismatch hhead ?_ (by decide), headMismatch hhead ?_ (by decide),
        headMismatch hhead ?_ (by decide)⟩ <;>
        (subst hd; rcases hc with h | h | h <;> (subst h; decide))

theorem noP_A {n c : Str} (hn : '/' ∉ n) (hc : ¬ loginSupport <:+: c) :
    ¬ SUPPORT_PATH <:+: (n ++ (if c = [] then ([] : Str) else '/' :: c)) ∧
    ¬ slashLoginSupport <:+ (n ++ (if c = [] then ([] : Str) else '/' :: c)) := by
  by_cases hce : c = []
  · subst hce
    rw [if_pos rfl, List.append_nil]
    constructor
    · intro h
      exact hn (memOfInf h (by decide))
    · intro h
      exact hn (memOfInf h.isInfix (by decide))
  · rw [if_neg hce]
    constructor
    · intro h
      rcases inf_split h with h1 | h2 | ⟨p₁, p₂, hsp, hne1, _, hsuf, _⟩
      · exact hn (memOfInf h1 (by decide))
      · rcases infConsCases h2 with h3 | h4
        · have h5 : ("login/support/".toList : Str) <+: c :=
            (List.cons_prefix_cons.mp
              (show ('/' :: ("login/support/".toList) : Str) <+: '/' :: c from h3)).2
          exact hc ((show loginSupport <+: ("login/support/".toList : Str)
            from ⟨['/'], rfl⟩).trans h5).isInfix
        · exact hc ((show loginSupport <:+: SUPPORT_PATH by decide).trans h4)
      · have hp1 : p₁ <+: SUPPORT_PATH := ⟨p₂, hsp.symm⟩
        have hslash : '/' ∈ p₁ := by
          cases p₁ with
          | nil => exact absurd rfl hne1
          | cons a r =>
            have ha := (List.cons_prefix_cons.mp
              (show (a :: r : Str) <+: '/' :: "login/support/".toList from hp1)).1
            rw [ha]
            exact List.mem_cons_self _ _
        exact hn (hsuf.isInfix.subset hslash)
    · intro h
      rcases suf_split h with h1 | ⟨s₁, hs₁, hsuf, hne⟩
      · rcases sufConsCases h1 with h2 | h3
        · have heq : loginSupport = c := by
            have h2' : ('/' :: loginSupport : Str) = '/' :: c := h2
            injection h2' with _ h3
          rw [← heq] at hc
          exact hc (preRefl _).isInfix
        · exact hc ((show loginSupport <:+ slashLoginSupport by decide).trans h3).isInfix
      · have hp1 : s₁ <+: slashLoginSupport := ⟨'/' :: c, hs₁.symm⟩
        have hslash : '/' ∈ s₁ := by
          cases s₁ with
          | nil => exact absurd rfl hne
          | cons a r =>
            have ha := (List.cons_prefix_cons.mp
              (show (a :: r : Str) <+: '/' :: loginSupport from hp1)).1
            rw [ha]
            exact List.mem_cons_self _ _
        exact hn (hsuf.isInfix.subset hslash)

theorem noSub_B {q f : Str} (hq : ¬ loginSupport <:+: q) (hf : ¬ loginSupport <:+: f) :
    ¬ loginSupport <:+:
      ((if q = [] then ([] : Str) else '?' :: q) ++
       (if f = [] then ([] : Str) else '#' :: f)) := by
  have hqpart : ¬ loginSupport <:+: (if q = [] then ([] : Str) else '?' :: q) := by
    by_cases hqe : q = []
    · rw [if_pos hqe]; decide
    · rw [if_neg hqe]
      intro h
      rcases infConsCases h with h1 | h2
      · rcases consPreHead h1 with hnil | ⟨u, hu, _⟩
        · exact absurd hnil (by decide)
        · have hhu : loginSupport.head? = some '?' := by rw [hu]; rfl
          exact absurd hhu (by decide)
      · exact hq h2
  have hfpart : ¬ loginSupport <:+: (if f = [] then ([] : Str) else '#' :: f) := by
    by_cases hfe : f = []
    · rw [if_pos hfe]; decide
    · rw [if_neg hfe]
      intro h
      rcases infConsCases h with h1 | h2
      · rcases consPreHead h1 with hnil | ⟨u, hu, _⟩
        · exact absurd hnil (by decide)
        · have hhu : loginSupport.head? = some '#' := by rw [hu]; rfl
          exact absurd hhu (by decide)
      · exact hf h2
  intro h
  rcases inf_split h with h1 | h2 | ⟨p₁, p₂, hsp, _, hne2, _, hpre⟩
  · exact hqpart h1
  · exact hfpart h2
  · by_cases hfe : f = []
    · rw [if_pos hfe] at hpre
      obtain ⟨r, hr⟩ := hpre
      exact hne2 (List.append_eq_nil.mp hr).1
    · rw [if_neg hfe] at hpre
      rcases consPreHead hpre with hnil | ⟨u, hu, _⟩
      · exact hne2 hnil
      · have hmem : '#' ∈ loginSupport := by
          rw [hsp]
          exact List.mem_append.mpr (Or.inr (by rw [hu]; exact List.mem_cons_self _ _))
        exact absurd hmem (by decide)

theorem consNetlocNoPre {nl cp B : Str} (hn : '/' ∉ nl) (hww : ¬ wwwL <+: nl)
    (hcphead : ∀ d r, cp = d :: r → d ≠ '/') :
    ¬ httpsL <+: ((nl ++ (if cp = [] then ([] : Str) else '/' :: cp)) ++ SUPPORT_PATH ++ B) ∧
    ¬ httpL <+: ((nl ++ (if cp = [] then ([] : Str) else '/' :: cp)) ++ SUPPORT_PATH ++ B) ∧
    ¬ wwwL <+: ((nl ++ (if cp = [] then ([] : Str) else '/' :: cp)) ++ SUPPORT_PATH ++ B) := by
  by_cases hcpe : cp = []
  · subst hcpe
    have hshape : ((nl ++ (if ([] : Str) = [] then ([] : Str) else '/' :: ([] : Str))) ++
        SUPPORT_PATH ++ B) = nl ++ '/' :: ("login/support/".toList ++ B) := by
      rw [if_pos rfl, List.append_nil, List.append_assoc]
      rfl
    rw [hshape]
    have ht : ∀ u, ("login/support/".toList ++ B : Str) ≠ '/' :: u := by
      intro u h
      have h2 : ('l' :: ("ogin/support/".toList ++ B) : Str) = '/' :: u := h
      injection h2 with h3 _
      exact absurd h3 (by decide)
    exact ⟨noHttpsPre hn ht, noHttpPre hn ht, noWwwPre hn hww⟩
  · obtain ⟨d, r, hdr⟩ : ∃ d r, cp = d :: r := by
      cases cp with
      | nil => exact absurd rfl hcpe
      | cons d r => exact ⟨d, r, rfl⟩
    have hd := hcphead d r hdr
    subst hdr
    have hshape : ((nl ++ (if (d :: r : Str) = [] then ([] : Str) else '/' :: d :: r)) ++
        SUPPORT_PATH ++ B) = nl ++ '/' :: (d :: r ++ (SUPPORT_PATH ++ B)) := by
      rw [if_neg (by simp)]
      simp [List.append_assoc]
    rw [hshape]
    have ht : ∀ u, (d :: r ++ (SUPPORT_PATH ++ B) : Str) ≠ '/' :: u := by
      intro u h
      have h2 : (d :: (r ++ (SUPPORT_PATH ++ B)) : Str) = '/' :: u := h
      injection h2 with h3 _
      exact hd h3
    exact ⟨noHttpsPre hn ht, noHttpPre hn ht, noWwwPre hn hww⟩

theorem buildChars {cu : Str} (hws : ∀ c ∈ cu, c.isWhitespace = false)
    {nl cp q f : Str} (hnl : nl <:+: cu) (hcp : cp <:+: cu) (hq : q <:+: cu)
    (hf : f <:+: cu) :
    ∀ ch ∈ ((nl ++ (if cp = [] then ([] : Str) else '/' :: cp)) ++ SUPPORT_PATH ++
        ((if q = [] then ([] : Str) else '?' :: q) ++
         (if f = [] then ([] : Str) else '#' :: f))),
      ch.isWhitespace = false := by
  intro ch hch
  have hP : ∀ c ∈ SUPPORT_PATH, c.isWhitespace = false := by decide
  simp only [List.mem_append] at hch
  rcases hch with ((h1 | h2) | h3) | (h4 | h5)
  · exact hws ch (hnl.subset h1)
  · split at h2
    · simp at h2
    · rcases List.mem_cons.mp h2 with h | h
      · subst h; decide
      · exact hws ch (hcp.subset h)
  · exact hP ch h3
  · split at h4
    · simp at h4
    · rcases List.mem_cons.mp h4 with h | h
      · subst h; decide
      · exact hws ch (hq.subset h)
  · split at h5
    · simp at h5
    · rcases List.mem_cons.mp h5 with h | h
      · subst h; decide
      · exact hws ch (hf.subset h)

/-- C1 (amended): for every url that strips to a nonempty string, whose
    cleaned form contains no whitespace and no square bracket (a netloc
    with an unbalanced bracket makes CPython's `urlparse` raise
    `ValueError`, outside this total model), does not itself begin with
    `www.` (no nested `www.` prefixes), and contains no occurrence of
    `login/support` at all, one application of `add_support_path` yields a
    string containing exactly one occurrence of `/login/support/`, and a
    second application returns that string unchanged. -/
theorem add_support_path_once_idem (url : Str)
    (h0 : strip url ≠ [])
    (hws : ∀ c ∈ clean_url url, c.isWhitespace = false)
    (_hb1 : '[' ∉ clean_url url)
    (_hb2 : ']' ∉ clean_url url)
    (hls : ¬ loginSupport <:+: clean_url url)
    (hw : ¬ wwwL <+: clean_url url) :
    countOcc SUPPORT_PATH (add_support_path url) = 1 ∧
    add_support_path (add_support_path url) = add_support_path url := by
  have hni : ¬ (SUPPORT_PATH <:+: clean_url url ∨ slashLoginSupport <:+ clean_url url) := by
    rintro (h | h)
    · exact hls ((show loginSupport <:+: SUPPORT_PATH by decide).trans h)
    · exact hls (((show loginSupport <:+ slashLoginSupport by decide).trans h).isInfix)
  have hasp : add_support_path url = buildResult (clean_url url) := asp_build h0 hni
  by_cases hn : (parseHttps (clean_url url)).netloc = []
  · have hb : add_support_path url = rstripSlash (clean_url url) ++ SUPPORT_PATH := by
      rw [hasp, buildResult_nilNetloc hn]
    have hA1 : ¬ SUPPORT_PATH <:+: rstripSlash (clean_url url) := fun h =>
      hls ((show loginSupport <:+: SUPPORT_PATH by decide).trans
        (h.trans (rstripPre _).isInfix))
    have hA2 : ¬ slashLoginSupport <:+ rstripSlash (clean_url url) := fun h =>
      hls ((((show loginSupport <:+ slashLoginSupport by decide).trans h).isInfix).trans
        (rstripPre _).isInfix)
    have hcount : countOcc SUPPORT_PATH (rstripSlash (clean_url url) ++ SUPPORT_PATH) = 1 := by
      have h := countOcc_one hA1 hA2 (show ¬ loginSupport <:+: ([] : Str) by decide)
      simpa using h
    obtain ⟨hpre1, hpre2, hpre3⟩ := nilNetlocNoPre hn
    constructor
    · rw [hb]; exact hcount
    · rw [hb]
      apply asp_fixed
      · intro hnil
        exact absurd (List.append_eq_nil.mp hnil).2 (by decide)
      · intro c hc
        rcases List.mem_append.mp hc with h | h
        · exact hws c (memOfInf (rstripPre _).isInfix h)
        · exact (show ∀ c ∈ SUPPORT_PATH, c.isWhitespace = false by decide) c h
      · exact hpre1
      · exact hpre2
      · exact hpre3
      · exact ⟨rstripSlash (clean_url url), [], by simp⟩
  · have hcpInf : stripSlash (parseHttps (clean_url url)).path <:+: clean_url url :=
      (stripSlashInf _).trans (pathInf _)
    have hcp : ¬ loginSupport <:+: stripSlash (parseHttps (clean_url url)).path :=
      fun h => hls (h.trans hcpInf)
    have hnlpre := netlocPre (clean_url url)
    have hnoslash := noSlashNetloc (clean_url url)
    have hnoww : ¬ wwwL <+: (parseHttps (clean_url url)).netloc :=
      fun h => hw (h.trans hnlpre)
    have hform : add_support_path url
        = ((parseHttps (clean_url url)).netloc ++
            (if stripSlash (parseHttps (clean_url url)).path = [] then ([] : Str)
             else '/' :: stripSlash (parseHttps (clean_url url)).path)) ++
          SUPPORT_PATH ++
          ((if (parseHttps (clean_url url)).query = [] then ([] : Str)
            else '?' :: (parseHttps (clean_url url)).query) ++
           (if (parseHttps (clean_url url)).fragment = [] then ([] : Str)
            else '#' :: (parseHttps (clean_url url)).fragment)) := by
      rw [hasp, buildResult_form hn hcp, dropPreNot hnoww]
    have hq2 : ¬ loginSupport <:+: (parseHttps (clean_url url)).query :=
      fun h => hls (h.trans (queryInf _))
    have hf2 : ¬ loginSupport <:+: (parseHttps (clean_url url)).fragment :=
      fun h => hls (h.trans (fragSuf _).isInfix)
    obtain ⟨hA1, hA2⟩ := noP_A hnoslash hcp
    have hB := noSub_B hq2 hf2
    have hcphead : ∀ d r, stripSlash (parseHttps (clean_url url)).path = d :: r → d ≠ '/' :=
      fun d r hdr => stripSlashHead hdr
    constructor
    · rw [hform]
      exact countOcc_one hA1 hA2 hB
    · rw [hform]
      apply asp_fixed
      · intro hnil
        have h1 := (List.append_eq_nil.mp (List.append_eq_nil.mp hnil).1).2
        exact absurd h1 (by decide)
      · exact buildChars hws hnlpre.isInfix hcpInf (queryInf _) (fragSuf _).isInfix
      · exact (consNetlocNoPre hnoslash hnoww hcphead).1
      · exact (consNetlocNoPre hnoslash hnoww hcphead).2.1
      · exact (consNetlocNoPre hnoslash hnoww hcphead).2.2
      · exact ⟨_, _, rfl⟩

/-- C1 (counterexample): the claim as stated fails on the code.  For
    `example.ch/login/supportx`, which lacks the canonical sub-path both as
    a substring and as a trailing path, one application appends nothing at
    all (the output contains zero occurrences of `/login/support/`); and
    for the inputs `www.www.www.foo` and `a?b #`, applying the function to
    its own output changes the string again. -/
theorem add_support_path_claim_cex :
    (¬ SUPPORT_PATH <:+: clean_url ("example.ch/login/supportx".toList) ∧
     ¬ slashLoginSupport <:+ clean_url ("example.ch/login/supportx".toList) ∧
     countOcc SUPPORT_PATH (add_support_path ("example.ch/login/supportx".toList)) = 0) ∧
    add_support_path (add_support_path ("www.www.www.foo".toList))
      ≠ add_support_path ("www.www.www.foo".toList) ∧
    add_support_path (add_support_path ("a?b #".toList))
      ≠ add_support_path ("a?b #".toList) := by decide

/-- C1 witness: the amended statement instantiated at `foo.socialweb.ch`. -/
theorem add_support_path_once_idem_witness :
    (strip ("foo.socialweb.ch".toList) ≠ [] ∧
     (∀ c ∈ clean_url ("foo.socialweb.ch".toList), c.isWhitespace = false) ∧
     '[' ∉ clean_url ("foo.socialweb.ch".toList) ∧
     ']' ∉ clean_url ("foo.socialweb.ch".toList) ∧
     ¬ loginSupport <:+: clean_url ("foo.socialweb.ch".toList) ∧
     ¬ wwwL <+: clean_url ("foo.socialweb.ch".toList)) ∧
    countOcc SUPPORT_PATH (add_support_path ("foo.socialweb.ch".toList)) = 1 ∧
    add_support_path (add_support_path ("foo.socialweb.ch".toList))
      = add_support_path ("foo.socialweb.ch".toList) :=
  ⟨⟨by decide, by decide, by decide, by decide, by decide, by decide⟩,
    add_support_path_once_idem ("foo.socialweb.ch".toList) (by decide) (by decide)
      (by decide) (by decide) (by decide) (by decide)⟩

/-- C2: whenever the cleaned url already contains `/login/support/` as a
    substring anywhere, or ends with `/login/support` without the trailing
    slash, `add_support_path` returns the scheme-stripped input
    (`clean_url`) unchanged — no second sub-path is appended. -/
theorem add_support_path_already_present (url : Str)
    (h : SUPPORT_PATH <:+: clean_url url ∨ slashLoginSupport <:+ clean_url url) :
    add_support_path url = clean_url url := by
  by_cases h0 : strip url = []
  · have hce : clean_url url = [] := by
      have hsuf := cleanSufStrip url
      rw [h0] at hsuf
      obtain ⟨t, ht⟩ := hsuf
      exact (List.append_eq_nil.mp ht).2
    rw [hce] at h
    rcases h with h | h
    · exact absurd h (by decide)
    · exact absurd h (by decide)
  · exact asp_sub h0 h

/-- C2 witness: instantiated at `x.socialweb.ch/login/support/`. -/
theorem add_support_path_already_present_witness :
    (SUPPORT_PATH <:+: clean_url ("x.socialweb.ch/login/support/".toList) ∨
     slashLoginSupport <:+ clean_url ("x.socialweb.ch/login/support/".toList)) ∧
    add_support_path ("x.socialweb.ch/login/support/".toList)
      = clean_url ("x.socialweb.ch/login/support/".toList) :=
  ⟨Or.inl (by decide),
    add_support_path_already_present _ (Or.inl (by decide))⟩

/-! ### Stage-2 parser facts -/

theorem parseLine_blank {l : Str} (h : strip l = []) : parseLine l = none := by
  simp only [parseLine]
  rw [if_pos h]

theorem parseLine_short {l : Str} (h : (splitOnC ';' (strip l)).length < 3) :
    parseLine l = none := by
  simp only [parseLine]
  by_cases h0 : strip l = []
  · rw [if_pos h0]
  · rw [if_neg h0, if_neg (by omega)]

theorem parseLine_empty_fields {l : Str}
    (ha : (splitOnC ';' (strip l)).getD 0 [] = [])
    (hw : (splitOnC ';' (strip l)).getD 2 [] = []) :
    parseLine l = none := by
  simp only [parseLine]
  by_cases h0 : strip l = []
  · rw [if_pos h0]
  · rw [if_neg h0]
    by_cases h3 : 3 ≤ (splitOnC ';' (strip l)).length
    · rw [if_pos h3, if_neg (by rintro (h | h); exacts [h ha, h hw])]
    · rw [if_neg h3]

theorem parseLine_some_fields {l : Str} {e : Entry} (h : parseLine l = some e) :
    (splitOnC ';' (strip l)).getD 0 [] ≠ [] ∨
    (splitOnC ';' (strip l)).getD 2 [] ≠ [] := by
  simp only [parseLine] at h
  by_cases h0 : strip l = []
  · rw [if_pos h0] at h
    exact absurd h (by simp)
  · rw [if_neg h0] at h
    by_cases h3 : 3 ≤ (splitOnC ';' (strip l)).length
    · rw [if_pos h3] at h
      by_cases hcond : (splitOnC ';' (strip l)).getD 0 [] ≠ [] ∨
          (splitOnC ';' (strip l)).getD 2 [] ≠ []
      · exact hcond
      · rw [if_neg hcond] at h
        exact absurd h (by simp)
    · rw [if_neg h3] at h
      exact absurd h (by simp)

theorem parseLine_some_shape {l : Str} {e : Entry} (h : parseLine l = some e) :
    e = mkEntry ((splitOnC ';' (strip l)).getD 0 []) ((splitOnC ';' (strip l)).getD 1 [])
      ((splitOnC ';' (strip l)).getD 2 []) ((splitOnC ';' (strip l)).getD 3 []) := by
  simp only [parseLine] at h
  by_cases h0 : strip l = []
  · rw [if_pos h0] at h
    exact absurd h (by simp)
  · rw [if_neg h0] at h
    by_cases h3 : 3 ≤ (splitOnC ';' (strip l)).length
    · rw [if_pos h3] at h
      by_cases hcond : (splitOnC ';' (strip l)).getD 0 [] ≠ [] ∨
          (splitOnC ';' (strip l)).getD 2 [] ≠ []
      · rw [if_pos hcond] at h
        exact (Option.some.inj h).symm
      · rw [if_neg hcond] at h
        exact absurd h (by simp)
    · rw [if_neg h3] at h
      exact absurd h (by simp)

/-- C3 (counterexample): the data line `;; ;x` has an empty raw name field
    and a whitespace-only raw url field — both trim to the empty string —
    yet the parser retains it and produces an entry, because the
    truthiness test runs on the raw fields before any trimming. -/
theorem parse_trimmed_retention_cex :
    strip ((splitOnC ';' (strip (";; ;x".toList))).getD 0 []) = [] ∧
    strip ((splitOnC ';' (strip (";; ;x".toList))).getD 2 []) = [] ∧
    (parse [HEADER, ";; ;x".toList]).length = 1 := by decide

/-- C3 (amended): a data line is retained only if its raw first or third
    field — exactly as split on `;`, before any trimming — is non-empty:
    a line whose raw name and url fields are both empty contributes no
    entry to the parse result, and every retained line has a non-empty raw
    name or url field. -/
theorem parse_retention :
    (∀ hd pre post l, (splitOnC ';' (strip l)).getD 0 [] = [] →
      (splitOnC ';' (strip l)).getD 2 [] = [] →
      parse (hd :: (pre ++ l :: post)) = parse (hd :: (pre ++ post))) ∧
    (∀ l e, parseLine l = some e →
      (splitOnC ';' (strip l)).getD 0 [] ≠ [] ∨
      (splitOnC ';' (strip l)).getD 2 [] ≠ []) := by
  constructor
  · intro hd pre post l ha hw
    show (pre ++ l :: post).filterMap parseLine = (pre ++ post).filterMap parseLine
    simp [List.filterMap_append, List.filterMap_cons, parseLine_empty_fields ha hw]
  · intro l e h
    exact parseLine_some_fields h

/-- C3 witness: the amended statement instantiated on a concrete file. -/
theorem parse_retention_witness :
    ((splitOnC ';' (strip (";;;o".toList))).getD 0 [] = [] ∧
     (splitOnC ';' (strip (";;;o".toList))).getD 2 [] = [] ∧
     parse [HEADER, "A;;u.ch;o".toList, ";;;o".toList]
       = parse [HEADER, "A;;u.ch;o".toList]) ∧
    (parseLine ("A;;u.ch;o".toList) = some (mkEntry "A".toList [] "u.ch".toList "o".toList) ∧
     ((splitOnC ';' (strip ("A;;u.ch;o".toList))).getD 0 [] ≠ [] ∨
      (splitOnC ';' (strip ("A;;u.ch;o".toList))).getD 2 [] ≠ [])) :=
  ⟨⟨by decide, by decide,
    parse_retention.1 HEADER ["A;;u.ch;o".toList] [] (";;;o".toList) (by decide) (by decide)⟩,
   ⟨by decide,
    parse_retention.2 ("A;;u.ch;o".toList) (mkEntry "A".toList [] "u.ch".toList "o".toList)
      (by decide)⟩⟩

/-- C4 (counterexample): `_normalize_url` does not test for "any scheme":
    `ftp://example.ch` carries the scheme `ftp` yet is rewritten to
    `https://ftp://example.ch` instead of being left unchanged, and the
    empty url lacks any scheme yet is not prefixed. -/
theorem normalize_url_scheme_cex :
    has_scheme ("ftp://example.ch".toList) = true ∧
    normalize_url ("ftp://example.ch".toList) ≠ "ftp://example.ch".toList ∧
    normalize_url ("ftp://example.ch".toList) = "https://ftp://example.ch".toList ∧
    has_scheme ([] : Str) = false ∧
    normalize_url ([] : Str) = [] := by decide

/-- C4 (amended): every parsed record's url is the stripped third field run
    through `_normalize_url`, which prefixes `https://` exactly when the
    url is nonempty and starts with neither `http://` nor `https://`;
    urls carrying either of those two prefixes, and the empty url, are
    left unchanged, and no sub-path canonicalization is applied in
    stage 2. -/
theorem normalize_url_amended :
    (∀ l e, parseLine l = some e →
      e.webadresse = normalize_url (strip ((splitOnC ';' (strip l)).getD 2 []))) ∧
    (∀ u : Str, (httpL <+: u ∨ httpsL <+: u) → normalize_url u = u) ∧
    (∀ u : Str, u ≠ [] → ¬ httpL <+: u → ¬ httpsL <+: u →
      normalize_url u = httpsL ++ u) ∧
    normalize_url [] = [] := by
  refine ⟨?_, ?_, ?_, rfl⟩
  · intro l e h
    rw [parseLine_some_shape h]
    rfl
  · intro u h
    unfold normalize_url
    rw [if_neg]
    rintro ⟨_, hn1, hn2⟩
    rcases h with h | h
    · exact hn1 h
    · exact hn2 h
  · intro u hne h1 h2
    unfold normalize_url
    rw [if_pos ⟨hne, h1, h2⟩]

/-- C4 witness: the amended statement instantiated on concrete urls. -/
theorem normalize_url_amended_witness :
    (parseLine ("B;;b.ch;o".toList) = some (mkEntry "B".toList [] "b.ch".toList "o".toList) ∧
     (mkEntry "B".toList [] "b.ch".toList "o".toList).webadresse
       = normalize_url (strip ((splitOnC ';' (strip ("B;;b.ch;o".toList))).getD 2 []))) ∧
    (httpsL <+: ("https://a.ch".toList : Str) ∧
     normalize_url ("https://a.ch".toList) = "https://a.ch".toList) ∧
    (("b.ch".toList : Str) ≠ [] ∧ ¬ httpL <+: ("b.ch".toList : Str) ∧
     ¬ httpsL <+: ("b.ch".toList : Str) ∧
     normalize_url ("b.ch".toList) = httpsL ++ "b.ch".toList) :=
  ⟨⟨by decide,
    normalize_url_amended.1 ("B;;b.ch;o".toList)
      (mkEntry "B".toList [] "b.ch".toList "o".toList) (by decide)⟩,
   ⟨by decide, normalize_url_amended.2.1 ("https://a.ch".toList) (Or.inr (by decide))⟩,
   ⟨by decide, by decide, by decide,
    normalize_url_amended.2.2.1 ("b.ch".toList) (by decide) (by decide) (by decide)⟩⟩

/-- C5: the stage-2 parser skips the first (header) line regardless of its
    content, skips blank lines, silently drops every line that splits on
    `;` into fewer than 3 fields, and parses a line with exactly 3 fields
    as if it had an implicit empty 4th (owner) field. -/
theorem parse_line_handling :
    (∀ hd hd2 rest, parse (hd :: rest) = parse (hd2 :: rest)) ∧
    (∀ hd pre post bl, strip bl = [] →
      parse (hd :: (pre ++ bl :: post)) = parse (hd :: (pre ++ post))) ∧
    (∀ hd pre post l, (splitOnC ';' (strip l)).length < 3 →
      parse (hd :: (pre ++ l :: post)) = parse (hd :: (pre ++ post))) ∧
    (∀ l a b w, splitOnC ';' (strip l) = [a, b, w] →
      parseLine l = if a ≠ [] ∨ w ≠ [] then some (mkEntry a b w []) else none) := by
  refine ⟨fun hd hd2 rest => rfl, ?_, ?_, ?_⟩
  · intro hd pre post bl h
    show (pre ++ bl :: post).filterMap parseLine = (pre ++ post).filterMap parseLine
    simp [List.filterMap_append, List.filterMap_cons, parseLine_blank h]
  · intro hd pre post l h
    show (pre ++ l :: post).filterMap parseLine = (pre ++ post).filterMap parseLine
    simp [List.filterMap_append, List.filterMap_cons, parseLine_short h]
  · intro l a b w hsplit
    have h0 : strip l ≠ [] := by
      intro h
      rw [h] at hsplit
      have := congrArg List.length hsplit
      simp [splitOnC] at this
    simp only [parseLine]
    rw [if_neg h0, hsplit, if_pos (by simp)]
    simp [List.getD]

/-- C5 witness: each part of the statement instantiated concretely. -/
theorem parse_line_handling_witness :
    parse ["anything".toList, "A;;u.ch;o".toList] = parse [HEADER, "A;;u.ch;o".toList] ∧
    (strip ("  ".toList) = [] ∧
     parse [HEADER, "  ".toList, "A;;u.ch;o".toList] = parse [HEADER, "A;;u.ch;o".toList]) ∧
    ((splitOnC ';' (strip ("justname".toList))).length < 3 ∧
     parse [HEADER, "justname".toList] = parse [HEADER]) ∧
    (splitOnC ';' (strip ("N;e;u.ch".toList)) = ["N".toList, "e".toList, "u.ch".toList] ∧
     parseLine ("N;e;u.ch".toList)
       = some (mkEntry "N".toList "e".toList "u.ch".toList [])) :=
  ⟨parse_line_handling.1 ("anything".toList) HEADER ["A;;u.ch;o".toList],
   ⟨by decide,
    parse_line_handling.2.1 HEADER [] ["A;;u.ch;o".toList] ("  ".toList) (by decide)⟩,
   ⟨by decide,
    parse_line_handling.2.2.1 HEADER [] [] ("justname".toList) (by decide)⟩,
   ⟨by decide, by
    rw [parse_line_handling.2.2.2 ("N;e;u.ch".toList) "N".toList "e".toList "u.ch".toList
      (by decide)]
    decide⟩⟩

/-- C9: a missing stage-2 input file or any read error makes `parse`
    return the empty entry list, and whenever the parsed list is empty the
    entry point `generate_html` reports failure (`false`) without writing
    any output document. -/
theorem generate_html_failure :
    parseFile none = [] ∧
    (∀ file, parseFile file = [] → generate_html file = (none, false)) := by
  constructor
  · rfl
  · intro file h
    unfold generate_html
    rw [h]

/-- C9 witness: a missing file and an empty (header-only) file. -/
theorem generate_html_failure_witness :
    (parseFile none = [] ∧ generate_html none = (none, false)) ∧
    (parseFile (some [HEADER]) = [] ∧ generate_html (some [HEADER]) = (none, false)) :=
  ⟨⟨generate_html_failure.1, generate_html_failure.2 none rfl⟩,
   ⟨rfl, generate_html_failure.2 (some [HEADER]) rfl⟩⟩

theorem get_first_letter_nil {e : Entry} (h : e.sort_string = []) :
    e.get_first_letter = '#' := by
  unfold Entry.get_first_letter
  rw [h]

theorem get_first_letter_eq {e : Entry} {c : Char} {t : Str} (h : e.sort_string = c :: t) :
    e.get_first_letter = if 'A' ≤ pyUpper c ∧ pyUpper c ≤ 'Z' then pyUpper c else '#' := by
  unfold Entry.get_first_letter
  rw [h]

/-- C8: a stage-2 record's grouping bucket is the uppercased first
    character of its sort key — the name when non-empty, else the
    scheme-stripped url — whenever that uppercased character lies in the
    26 ASCII uppercase letters, and the fallback bucket `#` otherwise,
    including for the empty sort key; in particular a record with empty
    name and url `example.ch` is grouped under `E`. -/
theorem get_first_letter_rule :
    (∀ a e w p, (mkEntry a e w p).sort_string
      = if strip a ≠ [] then strip a else stripSchemes (normalize_url (strip w))) ∧
    (∀ a e w p, (mkEntry a e w p).sort_string = [] →
      (mkEntry a e w p).get_first_letter = '#') ∧
    (∀ a e w p c t, (mkEntry a e w p).sort_string = c :: t →
      ('A' ≤ pyUpper c ∧ pyUpper c ≤ 'Z' →
        (mkEntry a e w p).get_first_letter = pyUpper c) ∧
      (¬ ('A' ≤ pyUpper c ∧ pyUpper c ≤ 'Z') →
        (mkEntry a e w p).get_first_letter = '#')) ∧
    (mkEntry [] [] ("example.ch".toList) []).get_first_letter = 'E' := by
  refine ⟨fun a e w p => rfl, fun a e w p h => get_first_letter_nil h, ?_, by decide⟩
  intro a e w p c t h
  constructor
  · intro hc
    rw [get_first_letter_eq h, if_pos hc]
  · intro hc
    rw [get_first_letter_eq h, if_neg hc]

/-- C8 witness: the statement instantiated on concrete records. -/
theorem get_first_letter_rule_witness :
    ((mkEntry ("beta".toList) [] [] []).sort_string = 'b' :: "eta".toList ∧
     ('A' ≤ pyUpper 'b' ∧ pyUpper 'b' ≤ 'Z') ∧
     (mkEntry ("beta".toList) [] [] []).get_first_letter = pyUpper 'b') ∧
    ((mkEntry [] [] ("1a.ch".toList) []).sort_string = '1' :: "a.ch".toList ∧
     ¬ ('A' ≤ pyUpper '1' ∧ pyUpper '1' ≤ 'Z') ∧
     (mkEntry [] [] ("1a.ch".toList) []).get_first_letter = '#') ∧
    ((mkEntry [] [] [] []).sort_string = [] ∧
     (mkEntry [] [] [] []).get_first_letter = '#') :=
  ⟨⟨by decide, by decide,
    (get_first_letter_rule.2.2.1 ("beta".toList) [] [] [] 'b' ("eta".toList)
      (by decide)).1 (by decide)⟩,
   ⟨by decide, by decide,
    (get_first_letter_rule.2.2.1 [] [] ("1a.ch".toList) [] '1' ("a.ch".toList)
      (by decide)).2 (by decide)⟩,
   ⟨by decide, get_first_letter_rule.2.1 [] [] [] [] (by decide)⟩⟩

theorem addEntry_mem (s : List Tup) (t : Tup) : t ∈ addEntry s t := by
  unfold addEntry
  split
  · assumption
  · simp

theorem addEntry_idem (s : List Tup) (t : Tup) :
    addEntry (addEntry s t) t = addEntry s t := by
  show (if t ∈ addEntry s t then addEntry s t else addEntry s t ++ [t]) = addEntry s t
  rw [if_pos (addEntry_mem s t)]

theorem mem_addEntry_of_mem {s : List Tup} {x : Tup} (h : x ∈ s) (t : Tup) :
    x ∈ addEntry s t := by
  unfold addEntry
  split
  · exact h
  · exact List.mem_append.mpr (Or.inl h)

theorem mem_foldl_addEntry {x : Tup} (g : Tup → Tup) :
    ∀ (l acc : List Tup), x ∈ acc → x ∈ l.foldl (fun s e => addEntry s (g e)) acc := by
  intro l
  induction l with
  | nil => intro acc h; exact h
  | cons a r ih => intro acc h; exact ih _ (mem_addEntry_of_mem h _)

theorem mem_foldl_addEntry_plain {x : Tup} :
    ∀ (l acc : List Tup), x ∈ acc → x ∈ l.foldl addEntry acc := by
  intro l
  induction l with
  | nil => intro acc h; exact h
  | cons a r ih => intro acc h; exact ih _ (mem_addEntry_of_mem h _)

theorem mem_dedupList {x : Tup} {l : List Tup} (h : x ∈ l) : x ∈ dedupList l := by
  unfold dedupList
  have haux : ∀ (l2 : List Tup) (acc : List Tup), x ∈ l2 → x ∈ l2.foldl addEntry acc := by
    intro l2
    induction l2 with
    | nil => intro acc h2; simp at h2
    | cons a r ih =>
      intro acc h2
      rcases List.mem_cons.mp h2 with h3 | h3
      · subst h3
        exact mem_foldl_addEntry_plain r _ (addEntry_mem acc x)
      · exact ih _ h3
  exact haux l [] h

theorem mem_stage1Core_of_mem {l : List Tup} {t : Tup} (h : t ∈ l) :
    entryLine t ∈ stage1Core l := by
  unfold stage1Core
  apply List.mem_cons_of_mem
  apply List.mem_map_of_mem
  show t ∈ stage1Entries l
  unfold stage1Entries
  rw [(List.perm_insertionSort tupleKeyLe (dedupUnion l)).mem_iff]
  unfold dedupUnion
  exact mem_foldl_addEntry _ _ _ (mem_dedupList h)

/-- C6: stage-1 deduplication is by exact equality of the full 4-tuple:
    adding the same tuple twice produces exactly the same output file as
    adding it once, while two tuples differing only in letter case both
    appear in the output as two distinct lines. -/
theorem stage1_exact_dedup :
    (∀ pre post t, stage1Core (pre ++ t :: t :: post) = stage1Core (pre ++ t :: post)) ∧
    (entryLine ("Alpha".toList, "X".toList, "u.ch".toList, "o".toList)
       ∈ stage1Core [("Alpha".toList, "X".toList, "u.ch".toList, "o".toList),
                     ("alpha".toList, "X".toList, "u.ch".toList, "o".toList)] ∧
     entryLine ("alpha".toList, "X".toList, "u.ch".toList, "o".toList)
       ∈ stage1Core [("Alpha".toList, "X".toList, "u.ch".toList, "o".toList),
                     ("alpha".toList, "X".toList, "u.ch".toList, "o".toList)] ∧
     entryLine ("Alpha".toList, "X".toList, "u.ch".toList, "o".toList)
       ≠ entryLine ("alpha".toList, "X".toList, "u.ch".toList, "o".toList)) := by
  constructor
  · intro pre post t
    unfold stage1Core stage1Entries dedupUnion dedupList
    rw [List.foldl_append, List.foldl_append]
    simp only [List.foldl_cons]
    rw [addEntry_idem]
  · exact ⟨mem_stage1Core_of_mem (by simp), mem_stage1Core_of_mem (by simp), by decide⟩

theorem stage1Core_cons (l : List Tup) :
    stage1Core l = HEADER :: (stage1Entries l).map entryLine := rfl

/-- C7: stage 1's output file is the fixed header line followed by one
    line per entry of the sorted entry list; that list is a permutation of
    the deduplicated union of the extracted and the static records, and it
    is in non-decreasing order of the case-insensitively compared name
    field. -/
theorem stage1_output (extracted : List Tup) :
    stage1Core extracted = HEADER :: (stage1Entries extracted).map entryLine ∧
    List.Perm (stage1Entries extracted) (dedupUnion extracted) ∧
    List.Sorted tupleKeyLe (stage1Entries extracted) :=
  ⟨stage1Core_cons extracted,
   List.perm_insertionSort tupleKeyLe (dedupUnion extracted),
   List.sorted_insertionSort tupleKeyLe (dedupUnion extracted)⟩
